import Mathlib

/-!
Verification development for a reverse-mode automatic differentiation engine.

The development shallowly embeds the engine's components over exact rational
arithmetic: machine doubles become `ℚ`, the transcendental `exp`/`log` become
abstract function parameters `qexp`/`qlog` (constrained by hypotheses where a
claim needs their algebraic laws), reverse-mode graph nodes become explicit
adjoint stores `ℕ → ℚ` indexed by node identifiers, and fallible operations
return `Except`.
-/

namespace StanAD

/-! ## Scalar squared distance (reverse mode) -/

/-- Modelled from the spec: the scalar forward value of `squared_distance`
(the prim scalar overload called by the reverse-mode node constructors is not
under `src/`); the spec states the forward value is `(a-b)²`. -/
def squared_distance_scalar (a b : ℚ) : ℚ := (a - b) * (a - b)

/-- Forward value computed by `scal_squared_distance_vv_vari`'s constructor. -/
def scal_squared_distance_vv_val (aval bval : ℚ) : ℚ :=
  squared_distance_scalar aval bval

/-- The `chain` method of `scal_squared_distance_vv_vari`: given the node's
adjoint `adj` and the operand values and adjoints, it adds `adj * 2 * diff`
to `a`'s adjoint and subtracts the same quantity from `b`'s adjoint. -/
def scal_squared_distance_vv_chain (aval bval adj aadj badj : ℚ) : ℚ × ℚ :=
  let diff := aval - bval
  (aadj + adj * 2 * diff, badj - adj * 2 * diff)

/-- Forward value computed by `scal_squared_distance_vd_vari`'s constructor;
the second operand is a plain constant. -/
def scal_squared_distance_vd_val (aval bd : ℚ) : ℚ :=
  squared_distance_scalar aval bd

/-- The `chain` method of `scal_squared_distance_vd_vari`, acting on an
adjoint store indexed by node identifiers.  The node holds a single operand
node identifier `ia` for `a`; the constant operand `bd` is stored as a plain
number and owns no adjoint slot, so the only store slot written is `ia`. -/
def scal_squared_distance_vd_chain (ia : ℕ) (aval bd adj : ℚ)
    (adjs : ℕ → ℚ) : ℕ → ℚ :=
  Function.update adjs ia (adjs ia + adj * 2 * (aval - bd))

/-! ## Vector squared distance (reverse mode) -/

/-- Forward value computed by `internal::squared_distance_vd_vari` (and, with
both arguments differentiable, `internal::squared_distance_vv_vari`): the sum
of squared coordinate differences, iterating over the first argument. -/
def squared_distance_vd_value (v1 v2 : List ℚ) : ℚ :=
  (List.zipWith (fun a b => (a - b) * (a - b)) v1 v2).sum

/-- The `chain` method of `internal::squared_distance_vd_vari`: for each
index `i` it adds `2 * adj * (v1ᵢ - v2ᵢ)` to the adjoint slot of the `i`-th
operand node of `v1`.  `ids` are the node identifiers of `v1`'s entries; the
constant vector `v2` is stored as plain numbers and owns no adjoint slots. -/
def squared_distance_vd_chain (ids : List ℕ) (v1 v2 : List ℚ) (adj : ℚ)
    (adjs : ℕ → ℚ) : ℕ → ℚ :=
  (List.zip ids (List.zip v1 v2)).foldl
    (fun s p => Function.update s p.1 (s p.1 + 2 * adj * (p.2.1 - p.2.2)))
    adjs

/-- The `squared_distance(var-matrix, double-matrix)` overload: builds a
`squared_distance_vd_vari` node from `(v, d)` and returns its forward value
together with the effect of its `chain` method on an adjoint store. -/
def squared_distance_rev_vd (v d : List ℚ) (ids : List ℕ) (adj : ℚ)
    (adjs : ℕ → ℚ) : ℚ × (ℕ → ℚ) :=
  (squared_distance_vd_value v d, squared_distance_vd_chain ids v d adj adjs)

/-- The `squared_distance(double-matrix, var-matrix)` overload: the source
delegates to `squared_distance_vd_vari(v2, v1)`, i.e. it builds the
variable-constant node with the operands swapped. -/
def squared_distance_rev_dv (d v : List ℚ) (ids : List ℕ) (adj : ℚ)
    (adjs : ℕ → ℚ) : ℚ × (ℕ → ℚ) :=
  squared_distance_rev_vd v d ids adj adjs

/-! ## The generic Eigen-matrix finite-check helper -/

/-- A machine double as far as finiteness checking is concerned: a rational
payload together with a flag recording whether the value is finite (NaN and
the infinities have the flag `false`). -/
structure FDouble where
  val : ℚ
  fin : Bool
deriving DecidableEq

/-- `allFinite` on an Eigen matrix: every element is finite. -/
def allFinite (y : List FDouble) : Bool := y.all (fun e => e.fin)

/-- The anonymous-namespace `check` helper for `Eigen::Matrix` from the
finite-check header.  The source reads:
if `!allFinite(y)` it enters a loop over the elements whose body is
`if (!isfinite(y(n))) return false; return true;` — both returns are inside
the loop body, so the function decides on element 0 alone.  Control paths
that fall off the end of the function (the all-finite case and the empty
matrix) return no value and are embedded as `none`. -/
def finite_check (y : List FDouble) : Option Bool :=
  if allFinite y then none
  else
    match y with
    | [] => none
    | e :: _ => if !e.fin then some false else some true

/-! ## OpenCL device-buffer copies and their event wait lists -/

/-- An asynchronous completion handle. -/
abbrev CLEvent := ℕ

/-- The event-tracking state of a `matrix_cl` device buffer: the outstanding
read-pending and write-pending events. -/
structure MatrixCL where
  readEvents : List CLEvent
  writeEvents : List CLEvent
deriving DecidableEq

/-- The observable synchronization behaviour of one copy operation:
`preWaits` are the events the host blocks on before enqueuing the transfer,
`cmdWaits` is the wait list passed to the enqueued command, and
`blocksOnCompletion` records whether the host waits for the transfer's own
completion event before returning. -/
structure CopyTrace where
  preWaits : List CLEvent
  cmdWaits : List CLEvent
  blocksOnCompletion : Bool
deriving DecidableEq

/-- `copy(matrix_cl& dst, const Eigen::Matrix&)` (host to device): the source
waits for and clears `dst`'s read events and write events, then enqueues a
non-blocking write with an empty wait list and adds the copy event as a write
event of `dst`. -/
def copy_eigen_to_cl (dst : MatrixCL) (ev : CLEvent) : CopyTrace × MatrixCL :=
  ({ preWaits := dst.readEvents ++ dst.writeEvents
     cmdWaits := []
     blocksOnCompletion := false },
   { readEvents := [], writeEvents := [ev] })

/-- `copy(Eigen::Matrix& dst, const matrix_cl&)` (device to host): the source
enqueues a read whose wait list is `src`'s write events, waits for the copy
event, then clears `src`'s write events. -/
def copy_cl_to_eigen (src : MatrixCL) (ev : CLEvent) : CopyTrace × MatrixCL :=
  ({ preWaits := []
     cmdWaits := src.writeEvents
     blocksOnCompletion := true },
   { readEvents := src.readEvents, writeEvents := [] })

/-- `copy(matrix_cl& dst, const matrix_cl&)` (device to device): the source
enqueues a buffer copy whose wait list is the concatenation of `dst`'s read
events and `src`'s write events, then records the copy event as a write event
of `dst` and a read event of `src`. -/
def copy_cl_to_cl (dst src : MatrixCL) (ev : CLEvent) :
    CopyTrace × MatrixCL × MatrixCL :=
  ({ preWaits := []
     cmdWaits := dst.readEvents ++ src.writeEvents
     blocksOnCompletion := false },
   { readEvents := dst.readEvents, writeEvents := dst.writeEvents ++ [ev] },
   { readEvents := src.readEvents ++ [ev], writeEvents := src.writeEvents })

/-! ## Theorems -/

/-- Claim C5: the scalar reverse-mode squared distance has forward value
`(a-b)²`; its `chain` adds `adj * 2 * (a-b)` to `a`'s adjoint and subtracts
the same quantity from `b`'s adjoint; these increments are the exact first
derivatives of the forward map in each operand (exact Taylor expansion); and
at `a = 3`, `b = 1` the value is `4` and seeding the adjoint at `1` from
zeroed operand adjoints yields `∂/∂a = 4` and `∂/∂b = -4`. -/
theorem scal_squared_distance_vv_spec (a b adj aadj badj : ℚ) :
    scal_squared_distance_vv_val a b = (a - b) ^ 2 ∧
    scal_squared_distance_vv_chain a b adj aadj badj =
      (aadj + adj * (2 * (a - b)), badj - adj * (2 * (a - b))) ∧
    (∀ h : ℚ, scal_squared_distance_vv_val (a + h) b =
      scal_squared_distance_vv_val a b + 2 * (a - b) * h + h ^ 2) ∧
    (∀ h : ℚ, scal_squared_distance_vv_val a (b + h) =
      scal_squared_distance_vv_val a b + (-(2 * (a - b))) * h + h ^ 2) ∧
    scal_squared_distance_vv_val 3 1 = 4 ∧
    scal_squared_distance_vv_chain 3 1 1 0 0 = (4, -4) := by
  refine ⟨by unfold scal_squared_distance_vv_val squared_distance_scalar; ring,
    ?_, ?_, ?_,
    by unfold scal_squared_distance_vv_val squared_distance_scalar; norm_num,
    by unfold scal_squared_distance_vv_chain; norm_num⟩
  · unfold scal_squared_distance_vv_chain
    dsimp only
    rw [Prod.mk.injEq]
    constructor <;> ring
  · intro h
    unfold scal_squared_distance_vv_val squared_distance_scalar
    ring
  · intro h
    unfold scal_squared_distance_vv_val squared_distance_scalar
    ring

/-- Helper: folding the vd-chain update over any association list leaves
every adjoint slot not named as a first component unchanged. -/
theorem foldl_update_frame (l : List (ℕ × (ℚ × ℚ))) (adj : ℚ)
    (adjs : ℕ → ℚ) (j : ℕ) (hj : ∀ p ∈ l, p.1 ≠ j) :
    (l.foldl
      (fun s p => Function.update s p.1 (s p.1 + 2 * adj * (p.2.1 - p.2.2)))
      adjs) j = adjs j := by
  induction l generalizing adjs with
  | nil => rfl
  | cons p l ih =>
    simp only [List.foldl_cons]
    rw [ih _ (fun q hq => hj q (List.mem_cons_of_mem p hq))]
    exact Function.update_noteq (fun h => hj p (List.mem_cons_self p l) h.symm)
      _ adjs ▸ rfl

/-- Claim C8: the generic Eigen-matrix finite-check helper early-returns on
the first finite element: whenever the first element is finite but some later
element is not, the helper reports the matrix as finite (`some true`) instead
of detecting the non-finite element. -/
theorem finite_check_early_return_bug (e : FDouble) (ys : List FDouble)
    (hfin : e.fin = true) (hbad : ∃ x ∈ ys, x.fin = false) :
    finite_check (e :: ys) = some true := by
  obtain ⟨x, hx, hxf⟩ := hbad
  have hall : allFinite (e :: ys) = false := by
    rw [Bool.eq_false_iff]
    intro h
    have := List.all_eq_true.mp h x (List.mem_cons_of_mem e hx)
    rw [hxf] at this
    exact Bool.false_ne_true this
  unfold finite_check
  rw [hall]
  simp [hfin]

/-- Claim C8 witness: the two-element matrix with a finite first element and
a non-finite second element is reported finite. -/
theorem finite_check_early_return_bug_witness :
    (FDouble.mk 0 true).fin = true ∧
    (∃ x ∈ [FDouble.mk 5 false], x.fin = false) ∧
    finite_check [FDouble.mk 0 true, FDouble.mk 5 false] = some true := by
  refine ⟨by decide, ⟨FDouble.mk 5 false, by decide, by decide⟩,
    finite_check_early_return_bug (FDouble.mk 0 true) [FDouble.mk 5 false]
      (by decide) ⟨FDouble.mk 5 false, by decide, by decide⟩⟩

/-- Claim C9: the device-buffer copies insert the required wait
dependencies.  The device-to-host copy passes every pending write event of
the source as a prerequisite of the enqueued read; the device-to-device copy
passes every pending write event of the source and every pending read event
of the destination as prerequisites of the enqueued transfer; and the
host-to-device copy blocks on every outstanding read event and write event of
the destination before enqueuing the write.  Hence no buffer is read before
its pending writes complete nor written before its pending reads (and, for
host-to-device, pending writes) complete. -/
theorem opencl_copy_wait_dependencies (dst src : MatrixCL) (ev : CLEvent) :
    (∀ e ∈ src.writeEvents, e ∈ (copy_cl_to_eigen src ev).1.cmdWaits) ∧
    (∀ e ∈ src.writeEvents, e ∈ (copy_cl_to_cl dst src ev).1.cmdWaits) ∧
    (∀ e ∈ dst.readEvents, e ∈ (copy_cl_to_cl dst src ev).1.cmdWaits) ∧
    (∀ e ∈ dst.readEvents, e ∈ (copy_eigen_to_cl dst ev).1.preWaits) ∧
    (∀ e ∈ dst.writeEvents, e ∈ (copy_eigen_to_cl dst ev).1.preWaits) := by
  refine ⟨fun e he => he, fun e he => ?_, fun e he => ?_, fun e he => ?_,
    fun e he => ?_⟩
  · exact List.mem_append_right _ he
  · exact List.mem_append_left _ he
  · exact List.mem_append_left _ he
  · exact List.mem_append_right _ he

/-- Claim C9 witness: the wait-dependency theorem evaluated on concrete
buffer states. -/
theorem opencl_copy_wait_dependencies_witness :
    (∀ e ∈ (MatrixCL.mk [3] [4]).writeEvents,
      e ∈ (copy_cl_to_eigen (MatrixCL.mk [3] [4]) 9).1.cmdWaits) ∧
    (∀ e ∈ (MatrixCL.mk [3] [4]).writeEvents,
      e ∈ (copy_cl_to_cl (MatrixCL.mk [1] [2]) (MatrixCL.mk [3] [4])
        9).1.cmdWaits) ∧
    (∀ e ∈ (MatrixCL.mk [1] [2]).readEvents,
      e ∈ (copy_cl_to_cl (MatrixCL.mk [1] [2]) (MatrixCL.mk [3] [4])
        9).1.cmdWaits) ∧
    (∀ e ∈ (MatrixCL.mk [1] [2]).readEvents,
      e ∈ (copy_eigen_to_cl (MatrixCL.mk [1] [2]) 9).1.preWaits) ∧
    (∀ e ∈ (MatrixCL.mk [1] [2]).writeEvents,
      e ∈ (copy_eigen_to_cl (MatrixCL.mk [1] [2]) 9).1.preWaits) :=
  opencl_copy_wait_dependencies (MatrixCL.mk [1] [2]) (MatrixCL.mk [3] [4]) 9

/-- Claim C10: the mixed vector squared-distance overloads are symmetric:
`squared_distance(d, v)` delegates to the variable-constant node with the
operands swapped, so it returns the same forward value as
`squared_distance(v, d)`, that value equals the direct sum of squared
differences `Σ (dᵢ - vᵢ)²`, and it produces the same adjoint store on `v`'s
operand nodes. -/
theorem squared_distance_dv_symm (v d : List ℚ) (ids : List ℕ) (adj : ℚ)
    (adjs : ℕ → ℚ) (hlen : v.length = d.length) :
    (squared_distance_rev_dv d v ids adj adjs).1 =
      (squared_distance_rev_vd v d ids adj adjs).1 ∧
    (squared_distance_rev_dv d v ids adj adjs).1 =
      (List.zipWith (fun a b => (a - b) * (a - b)) d v).sum ∧
    (squared_distance_rev_dv d v ids adj adjs).2 =
      (squared_distance_rev_vd v d ids adj adjs).2 := by
  refine ⟨rfl, ?_, rfl⟩
  show squared_distance_vd_value v d = _
  unfold squared_distance_vd_value
  rw [List.zipWith_comm_of_comm (fun a b => (a - b) * (a - b))
    (fun a b => by ring) d v]

/-- Claim C10 witness: the symmetry theorem evaluated at concrete vectors. -/
theorem squared_distance_dv_symm_witness :
    ([(1 : ℚ), 2].length = [(4 : ℚ), 6].length) ∧
    ((squared_distance_rev_dv [4, 6] [1, 2] [7, 8] 1 (fun _ => 0)).1 =
      (squared_distance_rev_vd [1, 2] [4, 6] [7, 8] 1 (fun _ => 0)).1 ∧
    (squared_distance_rev_dv [4, 6] [1, 2] [7, 8] 1 (fun _ => 0)).1 =
      (List.zipWith (fun a b => (a - b) * (a - b)) [(4 : ℚ), 6] [1, 2]).sum ∧
    (squared_distance_rev_dv [4, 6] [1, 2] [7, 8] 1 (fun _ => 0)).2 =
      (squared_distance_rev_vd [1, 2] [4, 6] [7, 8] 1 (fun _ => 0)).2) :=
  ⟨rfl, squared_distance_dv_symm [1, 2] [4, 6] [7, 8] 1 (fun _ => 0) rfl⟩

/-! ## Hidden Markov model marginal log-density

The forward pass and the adjoint (backward) computation of
`hmm_marginal_lpdf`.  Machine doubles are embedded as `ℚ`; the
transcendental `exp` and `log` are abstract parameters `qexp`/`qlog` so that
every definition stays exactly computable.  The `n_states` dimension is
`K + 1` (the simplex preconditions force at least one state).  The
imperative column-by-column loops are embedded as folds over an explicit
state carrying the written columns; unwritten slots hold `0`. -/

/-- `maxCoeff` of a nonempty column vector. -/
def vecMax {K : ℕ} (v : Fin (K + 1) → ℚ) : ℚ :=
  Finset.univ.sup' Finset.univ_nonempty v

/-- The forward-pass state of `internal::hmm_marginal_lpdf`: the matrix of
rescaled forward probabilities (column-indexed) and the running per-step
log-normalizers. -/
structure HMMFwdState (K : ℕ) where
  alphas : ℕ → Fin (K + 1) → ℚ
  logNorms : ℕ → ℚ

section HMM

variable (qexp qlog : ℚ → ℚ) {K : ℕ} (lomega : ℕ → Fin (K + 1) → ℚ)
variable (Gamma : Fin (K + 1) → Fin (K + 1) → ℚ) (rho : Fin (K + 1) → ℚ)

/-- The state after the pre-loop part of `internal::hmm_marginal_lpdf`:
`alphas.col(0) = omegas.col(0) ⊙ rho`, divided by its max coefficient, with
`alpha_log_norms(0) = log(norm)`.  `omegas = exp(log_omegas)` elementwise. -/
def hmmFwdInit : HMMFwdState K :=
  let a0 : Fin (K + 1) → ℚ := fun j => qexp (lomega 0 j) * rho j
  let norm := vecMax a0
  { alphas := fun m => if m = 0 then fun j => a0 j / norm else fun _ => 0
    logNorms := fun m => if m = 0 then qlog norm else 0 }

/-- One iteration of the forward loop at index `n`: writes column `n + 1` as
`omegas.col(n+1) ⊙ (Gamma^T * alphas.col(n))` divided by its max
coefficient, and accumulates the log-normalizer. -/
def hmmFwdStep (s : HMMFwdState K) (n : ℕ) : HMMFwdState K :=
  let raw : Fin (K + 1) → ℚ :=
    fun j => qexp (lomega (n + 1) j) * ∑ i, Gamma i j * s.alphas n i
  let norm := vecMax raw
  { alphas := fun m => if m = n + 1 then fun j => raw j / norm else s.alphas m
    logNorms := fun m =>
      if m = n + 1 then qlog norm + s.logNorms n else s.logNorms m }

/-- The full forward pass with `T` transitions (`T + 1` observation
columns): the initialization followed by the loop over `n = 0, …, T-1`. -/
def hmmFwd (T : ℕ) : HMMFwdState K :=
  (List.range T).foldl (hmmFwdStep qexp qlog lomega Gamma)
    (hmmFwdInit qexp qlog lomega rho)

/-- The value returned by `internal::hmm_marginal_lpdf`:
`log(sum(alphas.col(T))) + alpha_log_norms(T)`. -/
def hmmFwdResult (T : ℕ) : ℚ :=
  qlog (∑ j, (hmmFwd qexp qlog lomega Gamma rho T).alphas T j) +
    (hmmFwd qexp qlog lomega Gamma rho T).logNorms T

/-- The forward recursion in closed recursive form: column `n` of the
rescaled forward-probability matrix together with the divisor (the raw
column's max coefficient) used at step `n`. -/
def fwdColNorm : ℕ → (Fin (K + 1) → ℚ) × ℚ
  | 0 =>
    let a : Fin (K + 1) → ℚ := fun j => qexp (lomega 0 j) * rho j
    (fun j => a j / vecMax a, vecMax a)
  | n + 1 =>
    let p := fwdColNorm n
    let a : Fin (K + 1) → ℚ :=
      fun j => qexp (lomega (n + 1) j) * ∑ i, Gamma i j * p.1 i
    (fun j => a j / vecMax a, vecMax a)

/-- The running log-normalizer in closed recursive form:
`alpha_log_norms(n) = log(norm n) + alpha_log_norms(n-1)`. -/
def logNormSum : ℕ → ℚ
  | 0 => qlog (fwdColNorm qexp lomega Gamma rho 0).2
  | n + 1 => qlog (fwdColNorm qexp lomega Gamma rho (n + 1)).2 +
      logNormSum n

/-- The product of the rescaling divisors used up to step `n`. -/
def normProd : ℕ → ℚ
  | 0 => (fwdColNorm qexp lomega Gamma rho 0).2
  | n + 1 => normProd n * (fwdColNorm qexp lomega Gamma rho (n + 1)).2

/-- The unscaled forward recursion: the joint density over the observations
up to step `n` and the hidden state `j`, with no rescaling. -/
def alphaUnscaled : ℕ → Fin (K + 1) → ℚ
  | 0 => fun j => qexp (lomega 0 j) * rho j
  | n + 1 => fun j =>
      qexp (lomega (n + 1) j) * ∑ i, Gamma i j * alphaUnscaled n i

/-- The joint probability of one hidden-state path: the initial-state mass,
times the chain of transition probabilities, times the observation
densities. -/
def pathWeight (T : ℕ) (p : Fin (T + 1) → Fin (K + 1)) : ℚ :=
  rho (p 0) * (∏ n : Fin T, Gamma (p n.castSucc) (p n.succ)) *
    ∏ n : Fin (T + 1), qexp (lomega n (p n))

/-- The unscaled direct summation of the joint probabilities over the full
enumeration of discrete hidden-state paths. -/
def pathSum (T : ℕ) : ℚ :=
  ∑ p : Fin (T + 1) → Fin (K + 1), pathWeight qexp lomega Gamma rho T p

/-- The backward (adjoint) state of `hmm_marginal_lpdf`: the `kappa`
vectors, their independent running log-normalizers, and the per-step
correction factors `grad_corr`. -/
structure HMMBwdStateT (K : ℕ) where
  kappa : ℕ → Fin (K + 1) → ℚ
  kLogNorms : ℕ → ℚ
  gradCorr : ℕ → ℚ

/-- The state after the pre-loop part of the adjoint computation (run only
when `n_transitions > 0`): `kappa[T-1]` is the all-ones vector,
`kappa_log_norms(T-1) = 0`, and
`grad_corr[T-1] = exp(alpha_log_norms(T-1) - norm_norm)`.  Unwritten slots
hold `0`. -/
def hmmBwdInit (T : ℕ) (aLN : ℕ → ℚ) (normNorm : ℚ) : HMMBwdStateT K :=
  { kappa := fun m => if m = T - 1 then fun _ => 1 else fun _ => 0
    kLogNorms := fun _ => 0
    gradCorr := fun m =>
      if m = T - 1 then qexp (aLN (T - 1) - normNorm) else 0 }

/-- One iteration of the backward loop at index `n`: writes
`kappa[n] = Gamma * (omegas.col(n+2) ⊙ kappa[n+1])` rescaled by its own max
coefficient, accumulates `kappa_log_norms(n)`, and computes
`grad_corr[n] = exp(alpha_log_norms(n) + kappa_log_norms(n) - norm_norm)`. -/
def hmmBwdStep (aLN : ℕ → ℚ) (normNorm : ℚ) (s : HMMBwdStateT K) (n : ℕ) :
    HMMBwdStateT K :=
  let raw : Fin (K + 1) → ℚ :=
    fun j => ∑ i, Gamma j i * (qexp (lomega (n + 2) i) * s.kappa (n + 1) i)
  let norm := vecMax raw
  let newLN := qlog norm + s.kLogNorms (n + 1)
  { kappa := fun m => if m = n then fun j => raw j / norm else s.kappa m
    kLogNorms := fun m => if m = n then newLN else s.kLogNorms m
    gradCorr := fun m =>
      if m = n then qexp (aLN n + newLN - normNorm) else s.gradCorr m }

/-- The backward loop run for the iterations `m - 1, m - 2, …, 0`. -/
def bwdLoop (aLN : ℕ → ℚ) (normNorm : ℚ) (s : HMMBwdStateT K) (m : ℕ) :
    HMMBwdStateT K :=
  (List.range m).reverse.foldl
    (hmmBwdStep qexp qlog lomega Gamma aLN normNorm) s

/-- The full backward pass: the initialization followed by the loop over
`n = T - 2, …, 0` (the source loop `for (int n = n_transitions - 2; n >= 0;
--n)`). -/
def hmmBwd (T : ℕ) (aLN : ℕ → ℚ) (normNorm : ℚ) : HMMBwdStateT K :=
  bwdLoop qexp qlog lomega Gamma aLN normNorm
    (hmmBwdInit qexp T aLN normNorm) (T - 1)

/-- The backward pass as invoked by `hmm_marginal_lpdf`: `alpha_log_norms`
comes from the forward pass and `norm_norm = alpha_log_norms(T)`. -/
def hmmBwdFull (T : ℕ) : HMMBwdStateT K :=
  hmmBwd qexp qlog lomega Gamma T
    (hmmFwd qexp qlog lomega Gamma rho T).logNorms
    ((hmmFwd qexp qlog lomega Gamma rho T).logNorms T)

/-- The backward recursion in closed recursive form, indexed by the distance
`d` from the last step: position `d` holds `kappa[T-1-d]` and its
log-normalizer. -/
def kappaSpecAux (T : ℕ) : ℕ → (Fin (K + 1) → ℚ) × ℚ
  | 0 => (fun _ => 1, 0)
  | d + 1 =>
    let p := kappaSpecAux T d
    let raw : Fin (K + 1) → ℚ :=
      fun j => ∑ i, Gamma j i * (qexp (lomega (T - d) i) * p.1 i)
    (fun j => raw j / vecMax raw, qlog (vecMax raw) + p.2)

/-- The three Jacobian-adjoint products of `hmm_marginal_lpdf`, one per
operand, each computed only when the operand's type is non-constant
(`!is_constant_all<...>::value`); a constant operand's slot stays `none`. -/
structure HMMGrads (K : ℕ) where
  dOmega : Option (ℕ → Fin (K + 1) → ℚ)
  dGamma : Option (Fin (K + 1) → Fin (K + 1) → ℚ)
  dRho : Option (Fin (K + 1) → ℚ)

/-- The gradient-assembly tail of `hmm_marginal_lpdf`: the accumulation of
`Gamma_jacad`, `log_omega_jacad` (with its `n_transitions == 0` boundary
case) and the `rho` edge, guarded per operand by the constantness flags. -/
def hmmGradsOf (constOmega constGamma constRho : Bool) (T : ℕ) :
    HMMGrads K :=
  let F := hmmFwd qexp qlog lomega Gamma rho T
  let B := hmmBwdFull qexp qlog lomega Gamma rho T
  let unnormed := ∑ j, F.alphas T j
  let res := hmmFwdResult qexp qlog lomega Gamma rho T
  let gcb := qexp (B.kLogNorms 0 - F.logNorms T)
  let c : Fin (K + 1) → ℚ :=
    fun j => ∑ i, Gamma j i * (qexp (lomega 1 i) * B.kappa 0 i)
  { dOmega :=
      if constOmega then none
      else some (
        if T = 0 then
          fun m j => if m = 0 then qexp (lomega 0 j) * rho j / qexp res else 0
        else
          fun m j =>
            (if m = 0 then gcb * (c j * rho j)
             else if m ≤ T then
               B.gradCorr (m - 1) * (B.kappa (m - 1) j *
                 ∑ i, Gamma i j * F.alphas (m - 1) i)
             else 0) * (qexp (lomega m j) / unnormed))
    dGamma :=
      if constGamma then none
      else some (fun i j =>
        (∑ n ∈ Finset.range T,
          B.gradCorr n * (B.kappa n j * qexp (lomega (n + 1) j)) *
            F.alphas n i) / unnormed)
    dRho :=
      if constRho then none
      else some (
        if T = 0 then fun j => qexp (lomega 0 j) / qexp res
        else fun j => gcb * (c j * qexp (lomega 0 j)) / unnormed) }

end HMM

section HMMLemmas

variable (qexp qlog : ℚ → ℚ) {K : ℕ} (lomega : ℕ → Fin (K + 1) → ℚ)
variable (Gamma : Fin (K + 1) → Fin (K + 1) → ℚ) (rho : Fin (K + 1) → ℚ)

/-- Unrolling the last iteration of the forward loop. -/
theorem hmmFwd_succ (T : ℕ) :
    hmmFwd qexp qlog lomega Gamma rho (T + 1) =
      hmmFwdStep qexp qlog lomega Gamma
        (hmmFwd qexp qlog lomega Gamma rho T) T := by
  unfold hmmFwd
  rw [List.range_succ, List.foldl_append, List.foldl_cons, List.foldl_nil]

/-- Columns up to `T` are unchanged by the iteration that writes column
`T + 1`. -/
theorem hmmFwd_stable (T m : ℕ) (h : m ≤ T) :
    (hmmFwd qexp qlog lomega Gamma rho (T + 1)).alphas m =
      (hmmFwd qexp qlog lomega Gamma rho T).alphas m ∧
    (hmmFwd qexp qlog lomega Gamma rho (T + 1)).logNorms m =
      (hmmFwd qexp qlog lomega Gamma rho T).logNorms m := by
  rw [hmmFwd_succ]
  unfold hmmFwdStep
  have hm : m ≠ T + 1 := by omega
  exact ⟨by simp [hm], by simp [hm]⟩

/-- The forward loop computes the closed recursive form of the rescaled
columns: column `n` of `hmmFwd T` is `(fwdColNorm n).1` for every
`n ≤ T`. -/
theorem hmmFwd_col (T : ℕ) : ∀ n, n ≤ T →
    (hmmFwd qexp qlog lomega Gamma rho T).alphas n =
      (fwdColNorm qexp lomega Gamma rho n).1 ∧
    (hmmFwd qexp qlog lomega Gamma rho T).logNorms n =
      logNormSum qexp qlog lomega Gamma rho n := by
  induction T with
  | zero =>
    intro n hn
    interval_cases n
    constructor
    · show (hmmFwdInit qexp qlog lomega rho).alphas 0 = _
      unfold hmmFwdInit fwdColNorm
      simp
    · show (hmmFwdInit qexp qlog lomega rho).logNorms 0 = _
      unfold hmmFwdInit logNormSum fwdColNorm
      simp
  | succ T ih =>
    intro n hn
    rcases Nat.lt_or_ge n (T + 1) with hlt | hge
    · have hle : n ≤ T := by omega
      obtain ⟨h1, h2⟩ := hmmFwd_stable qexp qlog lomega Gamma rho T n hle
      rw [h1, h2]
      exact ih n hle
    · have hn' : n = T + 1 := by omega
      subst hn'
      obtain ⟨hA, hL⟩ := ih T (le_refl T)
      rw [hmmFwd_succ]
      unfold hmmFwdStep
      constructor
      · simp only [if_pos rfl]
        rw [hA]
        rfl
      · simp only [if_pos rfl]
        rw [hA, hL]
        rfl

/-- Claim C1: the HMM forward pass.  Column `0` of `alphas` is
`omega.col(0) ⊙ rho` divided by its max coefficient, with
`alpha_log_norms(0)` the log of that divisor; for every step `n < T`,
column `n + 1` is `omega.col(n+1) ⊙ (Gamma^T · alphas.col(n))` divided by
its max coefficient, with
`alpha_log_norms(n+1) = log(norm) + alpha_log_norms(n)`; and the returned
log marginal likelihood is `log(sum(alphas.col(T))) + alpha_log_norms(T)`. -/
theorem hmm_forward_pass_spec (qe ql : ℚ → ℚ) {K : ℕ}
    (lω : ℕ → Fin (K + 1) → ℚ) (Γm : Fin (K + 1) → Fin (K + 1) → ℚ)
    (ρ : Fin (K + 1) → ℚ) (T : ℕ) :
    ((hmmFwd qe ql lω Γm ρ T).alphas 0 = fun j =>
      (qe (lω 0 j) * ρ j) / vecMax (fun i => qe (lω 0 i) * ρ i)) ∧
    ((hmmFwd qe ql lω Γm ρ T).logNorms 0 =
      ql (vecMax (fun i => qe (lω 0 i) * ρ i))) ∧
    (∀ n, n < T →
      ((hmmFwd qe ql lω Γm ρ T).alphas (n + 1) = fun j =>
        (qe (lω (n + 1) j) *
            ∑ i, Γm i j * (hmmFwd qe ql lω Γm ρ T).alphas n i) /
          vecMax (fun j2 => qe (lω (n + 1) j2) *
            ∑ i, Γm i j2 * (hmmFwd qe ql lω Γm ρ T).alphas n i)) ∧
      (hmmFwd qe ql lω Γm ρ T).logNorms (n + 1) =
        ql (vecMax (fun j2 => qe (lω (n + 1) j2) *
            ∑ i, Γm i j2 * (hmmFwd qe ql lω Γm ρ T).alphas n i)) +
          (hmmFwd qe ql lω Γm ρ T).logNorms n) ∧
    hmmFwdResult qe ql lω Γm ρ T =
      ql (∑ j, (hmmFwd qe ql lω Γm ρ T).alphas T j) +
        (hmmFwd qe ql lω Γm ρ T).logNorms T := by
  refine ⟨?_, ?_, ?_, rfl⟩
  · rw [(hmmFwd_col qe ql lω Γm ρ T 0 (Nat.zero_le T)).1]
    rfl
  · rw [(hmmFwd_col qe ql lω Γm ρ T 0 (Nat.zero_le T)).2]
    rfl
  · intro n hn
    obtain ⟨hA, hL⟩ := hmmFwd_col qe ql lω Γm ρ T n (by omega)
    obtain ⟨hA1, hL1⟩ := hmmFwd_col qe ql lω Γm ρ T (n + 1) (by omega)
    rw [hA, hA1, hL, hL1]
    constructor
    · rfl
    · rfl

end HMMLemmas

section HMMPath

variable (qexp qlog : ℚ → ℚ) {K : ℕ} (lomega : ℕ → Fin (K + 1) → ℚ)
variable (Gamma : Fin (K + 1) → Fin (K + 1) → ℚ) (rho : Fin (K + 1) → ℚ)

/-- A nonnegative column with a positive entry has a positive max
coefficient, and rescaling it by that max keeps it nonnegative with a
positive sum. -/
theorem vecMax_scaled (a : Fin (K + 1) → ℚ) (h0 : ∀ j, 0 ≤ a j)
    (j0 : Fin (K + 1)) (hj0 : 0 < a j0) :
    0 < vecMax a ∧ (∀ j, 0 ≤ a j / vecMax a) ∧ 0 < ∑ j, a j / vecMax a := by
  have hM : 0 < vecMax a :=
    lt_of_lt_of_le hj0 (Finset.le_sup' a (Finset.mem_univ j0))
  refine ⟨hM, fun j => div_nonneg (h0 j) hM.le, ?_⟩
  rw [← Finset.sum_div]
  refine div_pos (lt_of_lt_of_le hj0 ?_) hM
  exact Finset.single_le_sum (fun j _ => h0 j) (Finset.mem_univ j0)

/-- A vector with positive total has a positive entry. -/
theorem exists_pos_of_sum_pos (v : Fin (K + 1) → ℚ) (h : 0 < ∑ j, v j) :
    ∃ j, 0 < v j := by
  by_contra hc
  push_neg at hc
  exact absurd (Finset.sum_nonpos fun j _ => hc j) (not_le.mpr h)

/-- Under the simplex preconditions (and positivity of the exponential),
every rescaled forward column is nonnegative with positive sum and every
rescaling divisor is positive. -/
theorem fwdColNorm_pos (hq : ∀ x, 0 < qexp x) (hr0 : ∀ j, 0 ≤ rho j)
    (hr1 : ∑ j, rho j = 1) (hG0 : ∀ i j, 0 ≤ Gamma i j)
    (hG1 : ∀ i, ∑ j, Gamma i j = 1) : ∀ n,
    (∀ j, 0 ≤ (fwdColNorm qexp lomega Gamma rho n).1 j) ∧
    0 < (fwdColNorm qexp lomega Gamma rho n).2 ∧
    0 < ∑ j, (fwdColNorm qexp lomega Gamma rho n).1 j := by
  intro n
  induction n with
  | zero =>
    have h0 : ∀ j, 0 ≤ qexp (lomega 0 j) * rho j :=
      fun j => mul_nonneg (hq _).le (hr0 j)
    obtain ⟨j0, hj0⟩ := exists_pos_of_sum_pos rho (by rw [hr1]; norm_num)
    obtain ⟨hM, hs, hsum⟩ :=
      vecMax_scaled (fun j => qexp (lomega 0 j) * rho j) h0 j0
        (mul_pos (hq _) hj0)
    exact ⟨hs, hM, hsum⟩
  | succ n ih =>
    obtain ⟨hp0, _, hpsum⟩ := ih
    have hinner0 : ∀ j,
        0 ≤ ∑ i, Gamma i j * (fwdColNorm qexp lomega Gamma rho n).1 i :=
      fun j => Finset.sum_nonneg fun i _ => mul_nonneg (hG0 i j) (hp0 i)
    have hswap :
        ∑ j, ∑ i, Gamma i j * (fwdColNorm qexp lomega Gamma rho n).1 i =
          ∑ i, (fwdColNorm qexp lomega Gamma rho n).1 i := by
      rw [Finset.sum_comm]
      refine Finset.sum_congr rfl fun i _ => ?_
      rw [← Finset.sum_mul, hG1 i, one_mul]
    obtain ⟨j0, hj0⟩ := exists_pos_of_sum_pos
      (fun j => ∑ i, Gamma i j * (fwdColNorm qexp lomega Gamma rho n).1 i)
      (by rw [hswap]; exact hpsum)
    have h0 : ∀ j, 0 ≤ qexp (lomega (n + 1) j) *
        ∑ i, Gamma i j * (fwdColNorm qexp lomega Gamma rho n).1 i :=
      fun j => mul_nonneg (hq _).le (hinner0 j)
    obtain ⟨hM, hs, hsum⟩ :=
      vecMax_scaled (fun j => qexp (lomega (n + 1) j) *
        ∑ i, Gamma i j * (fwdColNorm qexp lomega Gamma rho n).1 i) h0 j0
        (mul_pos (hq _) hj0)
    exact ⟨hs, hM, hsum⟩

/-- The product of the rescaling divisors is positive when each divisor
is. -/
theorem normProd_pos (hM : ∀ m, 0 < (fwdColNorm qexp lomega Gamma rho m).2) :
    ∀ n, 0 < normProd qexp lomega Gamma rho n := by
  intro n
  induction n with
  | zero => exact hM 0
  | succ n ih => exact mul_pos ih (hM (n + 1))

/-- The rescaling is exact: the unscaled forward recursion equals the
rescaled column multiplied by the accumulated product of divisors. -/
theorem alphaUnscaled_eq
    (hnz : ∀ m, (fwdColNorm qexp lomega Gamma rho m).2 ≠ 0) :
    ∀ n j, alphaUnscaled qexp lomega Gamma rho n j =
      (fwdColNorm qexp lomega Gamma rho n).1 j *
        normProd qexp lomega Gamma rho n := by
  intro n
  induction n with
  | zero =>
    intro j
    show qexp (lomega 0 j) * rho j = _
    rw [show normProd qexp lomega Gamma rho 0 =
        (fwdColNorm qexp lomega Gamma rho 0).2 from rfl]
    rw [show (fwdColNorm qexp lomega Gamma rho 0).1 j =
        (qexp (lomega 0 j) * rho j) /
          (fwdColNorm qexp lomega Gamma rho 0).2 from rfl]
    rw [div_mul_cancel₀ _ (hnz 0)]
  | succ n ih =>
    intro j
    show qexp (lomega (n + 1) j) *
        (∑ i, Gamma i j * alphaUnscaled qexp lomega Gamma rho n i) = _
    have hstep : ∑ i, Gamma i j * alphaUnscaled qexp lomega Gamma rho n i =
        (∑ i, Gamma i j * (fwdColNorm qexp lomega Gamma rho n).1 i) *
          normProd qexp lomega Gamma rho n := by
      rw [Finset.sum_mul]
      refine Finset.sum_congr rfl fun i _ => ?_
      rw [ih i]
      ring
    rw [hstep]
    rw [show (fwdColNorm qexp lomega Gamma rho (n + 1)).1 j =
        (qexp (lomega (n + 1) j) *
          ∑ i, Gamma i j * (fwdColNorm qexp lomega Gamma rho n).1 i) /
            (fwdColNorm qexp lomega Gamma rho (n + 1)).2 from rfl]
    rw [show normProd qexp lomega Gamma rho (n + 1) =
        normProd qexp lomega Gamma rho n *
          (fwdColNorm qexp lomega Gamma rho (n + 1)).2 from rfl]
    have hM := hnz (n + 1)
    field_simp
    ring

/-- The accumulated log-normalizer equals the log of the accumulated
product of divisors, for any `qlog` that is a homomorphism from products to
sums on positive arguments. -/
theorem logNormSum_eq
    (hlog : ∀ a b : ℚ, 0 < a → 0 < b → qlog (a * b) = qlog a + qlog b)
    (hM : ∀ m, 0 < (fwdColNorm qexp lomega Gamma rho m).2) :
    ∀ n, logNormSum qexp qlog lomega Gamma rho n =
      qlog (normProd qexp lomega Gamma rho n) := by
  intro n
  induction n with
  | zero => rfl
  | succ n ih =>
    show qlog (fwdColNorm qexp lomega Gamma rho (n + 1)).2 +
        logNormSum qexp qlog lomega Gamma rho n = _
    rw [ih,
      show normProd qexp lomega Gamma rho (n + 1) =
        normProd qexp lomega Gamma rho n *
          (fwdColNorm qexp lomega Gamma rho (n + 1)).2 from rfl,
      hlog _ _ (normProd_pos qexp lomega Gamma rho hM n) (hM (n + 1)),
      add_comm]

/-- The unscaled forward recursion enumerates hidden-state paths: its value
at state `j` after `T` transitions is the total weight of all paths ending
at `j`. -/
theorem alphaUnscaled_path : ∀ (T : ℕ) (j : Fin (K + 1)),
    alphaUnscaled qexp lomega Gamma rho T j =
      ∑ p : Fin (T + 1) → Fin (K + 1),
        if p (Fin.last T) = j then pathWeight qexp lomega Gamma rho T p
        else 0 := by
  intro T
  induction T with
  | zero =>
    intro j
    rw [← Equiv.sum_comp (Equiv.funUnique (Fin 1) (Fin (K + 1))).symm
      (fun p => if p (Fin.last 0) = j
        then pathWeight qexp lomega Gamma rho 0 p else 0)]
    have hval : ∀ s : Fin (K + 1),
        (if ((Equiv.funUnique (Fin 1) (Fin (K + 1))).symm s) (Fin.last 0) = j
          then pathWeight qexp lomega Gamma rho 0
            ((Equiv.funUnique (Fin 1) (Fin (K + 1))).symm s) else 0) =
        if s = j then rho s * qexp (lomega 0 s) else 0 := by
      intro s
      have h1 : ((Equiv.funUnique (Fin 1) (Fin (K + 1))).symm s)
          (Fin.last 0) = s := rfl
      rw [h1]
      rcases eq_or_ne s j with h | h
      · rw [if_pos h, if_pos h]
        unfold pathWeight
        rw [Fin.prod_univ_zero, Fin.prod_univ_one]
        show rho s * 1 * qexp (lomega 0 s) = _
        ring
      · rw [if_neg h, if_neg h]
    rw [Finset.sum_congr rfl fun s _ => hval s, Fintype.sum_ite_eq' j
      (fun s => rho s * qexp (lomega 0 s))]
    show qexp (lomega 0 j) * rho j = _
    ring
  | succ T ih =>
    intro j
    show qexp (lomega (T + 1) j) *
        (∑ i, Gamma i j * alphaUnscaled qexp lomega Gamma rho T i) = _
    rw [← Equiv.sum_comp (Fin.snocEquiv fun _ => Fin (K + 1))
      (fun p => if p (Fin.last (T + 1)) = j
        then pathWeight qexp lomega Gamma rho (T + 1) p else 0),
      Fintype.sum_prod_type]
    have houter : ∀ x : Fin (K + 1),
        (∑ p : Fin (T + 1) → Fin (K + 1),
          if (Fin.snocEquiv (fun _ => Fin (K + 1)) (x, p))
              (Fin.last (T + 1)) = j
            then pathWeight qexp lomega Gamma rho (T + 1)
              (Fin.snocEquiv (fun _ => Fin (K + 1)) (x, p)) else 0) =
        if x = j then
          ∑ p : Fin (T + 1) → Fin (K + 1),
            pathWeight qexp lomega Gamma rho (T + 1) (Fin.snoc p x)
        else 0 := by
      intro x
      have hlast : ∀ p : Fin (T + 1) → Fin (K + 1),
          (Fin.snocEquiv (fun _ => Fin (K + 1)) (x, p))
            (Fin.last (T + 1)) = x := by
        intro p
        simp [Fin.snocEquiv]
      rcases eq_or_ne x j with h | h
      · rw [if_pos h]
        refine Finset.sum_congr rfl fun p _ => ?_
        rw [hlast p, if_pos h]
        rfl
      · rw [if_neg h]
        refine Finset.sum_eq_zero fun p _ => ?_
        rw [hlast p, if_neg h]
    rw [Finset.sum_congr rfl fun x _ => houter x, Fintype.sum_ite_eq' j
      (fun x => ∑ p : Fin (T + 1) → Fin (K + 1),
        pathWeight qexp lomega Gamma rho (T + 1) (Fin.snoc p x))]
    have hsnoc : ∀ p : Fin (T + 1) → Fin (K + 1),
        pathWeight qexp lomega Gamma rho (T + 1) (Fin.snoc p j) =
          qexp (lomega (T + 1) j) *
            (pathWeight qexp lomega Gamma rho T p * Gamma (p (Fin.last T)) j)
        := by
      intro p
      unfold pathWeight
      have h0 : (Fin.snoc p j : Fin (T + 2) → Fin (K + 1)) 0 = p 0 := by
        rw [show (0 : Fin (T + 2)) = Fin.castSucc 0 from rfl,
          Fin.snoc_castSucc]
      have hG : (∏ n : Fin (T + 1),
          Gamma ((Fin.snoc p j : Fin (T + 2) → Fin (K + 1)) n.castSucc)
            ((Fin.snoc p j : Fin (T + 2) → Fin (K + 1)) n.succ)) =
          (∏ n : Fin T, Gamma (p n.castSucc) (p n.succ)) *
            Gamma (p (Fin.last T)) j := by
        rw [Fin.prod_univ_castSucc]
        congr 1
        · refine Finset.prod_congr rfl fun m _ => ?_
          rw [Fin.snoc_castSucc, Fin.succ_castSucc, Fin.snoc_castSucc]
        · rw [Fin.snoc_castSucc, Fin.succ_last, Fin.snoc_last]
      have hW : (∏ n : Fin (T + 2),
          qexp (lomega n ((Fin.snoc p j : Fin (T + 2) → Fin (K + 1)) n))) =
          (∏ n : Fin (T + 1), qexp (lomega n (p n))) *
            qexp (lomega (T + 1) j) := by
        rw [Fin.prod_univ_castSucc]
        congr 1
        · refine Finset.prod_congr rfl fun m _ => ?_
          rw [Fin.snoc_castSucc, Fin.coe_castSucc]
        · rw [Fin.snoc_last, Fin.val_last]
      rw [h0, hG, hW]
      ring
    rw [Finset.sum_congr rfl fun p _ => hsnoc p, ← Finset.mul_sum]
    congr 1
    rw [Finset.sum_congr rfl fun i (_ : i ∈ Finset.univ) => by
      rw [ih i, Finset.mul_sum], Finset.sum_comm]
    refine Finset.sum_congr rfl fun p _ => ?_
    have hpull : ∀ i : Fin (K + 1),
        Gamma i j * (if p (Fin.last T) = i
            then pathWeight qexp lomega Gamma rho T p else 0) =
        (if p (Fin.last T) = i
            then Gamma i j * pathWeight qexp lomega Gamma rho T p else 0) :=
      fun i => by rcases eq_or_ne (p (Fin.last T)) i with h | h
                  · rw [if_pos h, if_pos h]
                  · rw [if_neg h, if_neg h, mul_zero]
    rw [Finset.sum_congr rfl fun i _ => hpull i,
      Fintype.sum_ite_eq (p (Fin.last T))
        (fun i => Gamma i j * pathWeight qexp lomega Gamma rho T p)]
    ring

/-- Summing the unscaled forward recursion over the final state gives the
direct summation over the full enumeration of hidden-state paths. -/
theorem sum_alphaUnscaled_eq_pathSum (T : ℕ) :
    ∑ j, alphaUnscaled qexp lomega Gamma rho T j =
      pathSum qexp lomega Gamma rho T := by
  unfold pathSum
  rw [Finset.sum_congr rfl fun j _ => alphaUnscaled_path qexp lomega Gamma
    rho T j, Finset.sum_comm]
  refine Finset.sum_congr rfl fun p _ => ?_
  exact Fintype.sum_ite_eq (p (Fin.last T))
    (fun _ => pathWeight qexp lomega Gamma rho T p)

end HMMPath

/-- Claim C4: in exact arithmetic the max-coefficient-rescaled forward
recursion computes the same log marginal likelihood as the unscaled direct
summation of joint probabilities over the full enumeration of hidden-state
paths: for any positive exponential `qe`, any `ql` that maps products of
positives to sums, and any inputs satisfying the simplex preconditions, the
value returned by the forward pass equals `ql` of the path sum. -/
theorem hmm_rescaled_eq_path (qe ql : ℚ → ℚ) {K : ℕ}
    (lω : ℕ → Fin (K + 1) → ℚ) (Γm : Fin (K + 1) → Fin (K + 1) → ℚ)
    (ρ : Fin (K + 1) → ℚ) (T : ℕ)
    (hq : ∀ x, 0 < qe x) (hr0 : ∀ j, 0 ≤ ρ j) (hr1 : ∑ j, ρ j = 1)
    (hG0 : ∀ i j, 0 ≤ Γm i j) (hG1 : ∀ i, ∑ j, Γm i j = 1)
    (hlog : ∀ a b : ℚ, 0 < a → 0 < b → ql (a * b) = ql a + ql b) :
    hmmFwdResult qe ql lω Γm ρ T = ql (pathSum qe lω Γm ρ T) := by
  have hpos := fwdColNorm_pos qe lω Γm ρ hq hr0 hr1 hG0 hG1
  have hM : ∀ m, 0 < (fwdColNorm qe lω Γm ρ m).2 := fun m => (hpos m).2.1
  have hnz : ∀ m, (fwdColNorm qe lω Γm ρ m).2 ≠ 0 := fun m => (hM m).ne'
  unfold hmmFwdResult
  rw [(hmmFwd_col qe ql lω Γm ρ T T le_rfl).1,
    (hmmFwd_col qe ql lω Γm ρ T T le_rfl).2,
    logNormSum_eq qe ql lω Γm ρ hlog hM T,
    ← hlog _ _ (hpos T).2.2 (normProd_pos qe lω Γm ρ hM T),
    ← sum_alphaUnscaled_eq_pathSum qe lω Γm ρ T]
  congr 1
  rw [Finset.sum_mul]
  exact Finset.sum_congr rfl fun j _ => (alphaUnscaled_eq qe lω Γm ρ hnz T j).symm

/-- Claim C4 witness: the 2-state chain with `rho = [1/2, 1/2]`,
`Transition = [[9/10, 1/10], [1/5, 4/5]]` and three observations (eight
hidden-state paths), with `qe` the constant-one exponential and `ql ≡ 0`
(which is a product-to-sum homomorphism on positives). -/
theorem hmm_rescaled_eq_path_witness :
    (∀ j, (0 : ℚ) ≤ (![(1 : ℚ)/2, 1/2]) j) ∧
    (∑ j, (![(1 : ℚ)/2, 1/2]) j = 1) ∧
    (∀ i j, (0 : ℚ) ≤ (![![(9 : ℚ)/10, 1/10], ![1/5, 4/5]]) i j) ∧
    (∀ i, ∑ j, (![![(9 : ℚ)/10, 1/10], ![1/5, 4/5]]) i j = 1) ∧
    hmmFwdResult (fun _ => 1) (fun _ => 0) (fun _ _ => 0)
      (![![(9 : ℚ)/10, 1/10], ![1/5, 4/5]]) (![(1 : ℚ)/2, 1/2]) 2 =
      (0 : ℚ) := by
  have hr0 : ∀ j, (0 : ℚ) ≤ (![(1 : ℚ)/2, 1/2]) j := by
    intro j
    fin_cases j <;> norm_num
  have hr1 : ∑ j, (![(1 : ℚ)/2, 1/2]) j = 1 := by
    rw [Fin.sum_univ_two]
    norm_num
  have hG0 : ∀ i j, (0 : ℚ) ≤ (![![(9 : ℚ)/10, 1/10], ![1/5, 4/5]]) i j := by
    intro i j
    fin_cases i <;> fin_cases j <;> norm_num
  have hG1 : ∀ i, ∑ j, (![![(9 : ℚ)/10, 1/10], ![1/5, 4/5]]) i j = 1 := by
    intro i
    fin_cases i <;> rw [Fin.sum_univ_two] <;> norm_num
  exact ⟨hr0, hr1, hG0, hG1,
    hmm_rescaled_eq_path (fun _ => 1) (fun _ => 0) (fun _ _ => 0)
      (![![(9 : ℚ)/10, 1/10], ![1/5, 4/5]]) (![(1 : ℚ)/2, 1/2]) 2
      (fun _ => one_pos) hr0 hr1 hG0 hG1 (fun a b _ _ => by norm_num)⟩

section HMMBwd

variable (qexp qlog : ℚ → ℚ) {K : ℕ} (lomega : ℕ → Fin (K + 1) → ℚ)
variable (Gamma : Fin (K + 1) → Fin (K + 1) → ℚ)
variable (aLN : ℕ → ℚ) (normNorm : ℚ)

/-- The backward iteration writes `kappa[n]` as the rescaled
`Gamma * (omega.col(n+2) ⊙ kappa[n+1])`. -/
theorem hmmBwdStep_kappa_self (s : HMMBwdStateT K) (n : ℕ) :
    (hmmBwdStep qexp qlog lomega Gamma aLN normNorm s n).kappa n =
      fun j => (∑ i, Gamma j i * (qexp (lomega (n + 2) i) * s.kappa (n + 1) i))
        / vecMax (fun j2 =>
            ∑ i, Gamma j2 i * (qexp (lomega (n + 2) i) * s.kappa (n + 1) i))
    := by
  unfold hmmBwdStep
  simp

/-- The backward iteration writes `kappa_log_norms(n)` as the accumulated
log of its own rescaling divisor. -/
theorem hmmBwdStep_kLN_self (s : HMMBwdStateT K) (n : ℕ) :
    (hmmBwdStep qexp qlog lomega Gamma aLN normNorm s n).kLogNorms n =
      qlog (vecMax (fun j2 =>
          ∑ i, Gamma j2 i * (qexp (lomega (n + 2) i) * s.kappa (n + 1) i))) +
        s.kLogNorms (n + 1) := by
  unfold hmmBwdStep
  simp

/-- The backward iteration writes
`grad_corr[n] = exp(alpha_log_norms(n) + kappa_log_norms(n) - norm_norm)`. -/
theorem hmmBwdStep_gc_self (s : HMMBwdStateT K) (n : ℕ) :
    (hmmBwdStep qexp qlog lomega Gamma aLN normNorm s n).gradCorr n =
      qexp (aLN n +
        (qlog (vecMax (fun j2 =>
          ∑ i, Gamma j2 i * (qexp (lomega (n + 2) i) * s.kappa (n + 1) i))) +
          s.kLogNorms (n + 1)) - normNorm) := by
  unfold hmmBwdStep
  simp

/-- The backward iteration at index `n` leaves every other index alone. -/
theorem hmmBwdStep_ne (s : HMMBwdStateT K) (n m : ℕ) (h : m ≠ n) :
    (hmmBwdStep qexp qlog lomega Gamma aLN normNorm s n).kappa m =
      s.kappa m ∧
    (hmmBwdStep qexp qlog lomega Gamma aLN normNorm s n).kLogNorms m =
      s.kLogNorms m ∧
    (hmmBwdStep qexp qlog lomega Gamma aLN normNorm s n).gradCorr m =
      s.gradCorr m := by
  unfold hmmBwdStep
  exact ⟨by simp [h], by simp [h], by simp [h]⟩

/-- Unrolling the first iteration of the backward loop. -/
theorem bwdLoop_succ (s : HMMBwdStateT K) (m : ℕ) :
    bwdLoop qexp qlog lomega Gamma aLN normNorm s (m + 1) =
      bwdLoop qexp qlog lomega Gamma aLN normNorm
        (hmmBwdStep qexp qlog lomega Gamma aLN normNorm s m) m := by
  unfold bwdLoop
  rw [List.range_succ, List.reverse_append]
  rfl

/-- Unfolding the closed recursive form of the backward recursion one step
away from the boundary. -/
theorem kappaSpecAux_succ (T d : ℕ) :
    kappaSpecAux qexp qlog lomega Gamma T (d + 1) =
      ((fun j => (∑ i, Gamma j i * (qexp (lomega (T - d) i) *
          (kappaSpecAux qexp qlog lomega Gamma T d).1 i)) /
        vecMax (fun j2 => ∑ i, Gamma j2 i * (qexp (lomega (T - d) i) *
          (kappaSpecAux qexp qlog lomega Gamma T d).1 i))),
       qlog (vecMax (fun j2 => ∑ i, Gamma j2 i * (qexp (lomega (T - d) i) *
          (kappaSpecAux qexp qlog lomega Gamma T d).1 i))) +
         (kappaSpecAux qexp qlog lomega Gamma T d).2) := rfl

/-- The main backward-loop invariant: starting from a state whose slot `m`
holds the closed recursive form at distance `T - 1 - m`, the loop fills
every slot `n ≤ m` with the closed recursive form at distance `T - 1 - n`,
computes `grad_corr` accordingly for `n < m`, and leaves slots `≥ m`
untouched. -/
theorem bwdLoop_inv (T : ℕ) : ∀ m, ∀ s : HMMBwdStateT K, m + 1 ≤ T →
    s.kappa m = (kappaSpecAux qexp qlog lomega Gamma T (T - 1 - m)).1 →
    s.kLogNorms m = (kappaSpecAux qexp qlog lomega Gamma T (T - 1 - m)).2 →
    (∀ n, n ≤ m →
      (bwdLoop qexp qlog lomega Gamma aLN normNorm s m).kappa n =
        (kappaSpecAux qexp qlog lomega Gamma T (T - 1 - n)).1 ∧
      (bwdLoop qexp qlog lomega Gamma aLN normNorm s m).kLogNorms n =
        (kappaSpecAux qexp qlog lomega Gamma T (T - 1 - n)).2) ∧
    (∀ n, n < m →
      (bwdLoop qexp qlog lomega Gamma aLN normNorm s m).gradCorr n =
        qexp (aLN n +
          (kappaSpecAux qexp qlog lomega Gamma T (T - 1 - n)).2 - normNorm)) ∧
    (∀ n, m ≤ n →
      (bwdLoop qexp qlog lomega Gamma aLN normNorm s m).kappa n = s.kappa n ∧
      (bwdLoop qexp qlog lomega Gamma aLN normNorm s m).kLogNorms n =
        s.kLogNorms n ∧
      (bwdLoop qexp qlog lomega Gamma aLN normNorm s m).gradCorr n =
        s.gradCorr n) := by
  intro m
  induction m with
  | zero =>
    intro s _ h1 h2
    exact ⟨fun n hn => by
        interval_cases n
        exact ⟨h1, h2⟩,
      fun n hn => absurd hn (Nat.not_lt_zero n),
      fun n _ => ⟨rfl, rfl, rfl⟩⟩
  | succ m ihm =>
    intro s hmT h1 h2
    have hd : T - 1 - m = (T - 1 - (m + 1)) + 1 := by omega
    have hTd : T - (T - 1 - (m + 1)) = m + 2 := by omega
    rw [bwdLoop_succ]
    have hspec : (kappaSpecAux qexp qlog lomega Gamma T (T - 1 - m)).1 =
        (fun j => (∑ i, Gamma j i *
            (qexp (lomega (m + 2) i) * s.kappa (m + 1) i)) /
          vecMax (fun j2 => ∑ i, Gamma j2 i *
            (qexp (lomega (m + 2) i) * s.kappa (m + 1) i))) ∧
        (kappaSpecAux qexp qlog lomega Gamma T (T - 1 - m)).2 =
        qlog (vecMax (fun j2 => ∑ i, Gamma j2 i *
            (qexp (lomega (m + 2) i) * s.kappa (m + 1) i))) +
          (kappaSpecAux qexp qlog lomega Gamma T (T - 1 - (m + 1))).2 := by
      rw [hd, kappaSpecAux_succ qexp qlog lomega Gamma T (T - 1 - (m + 1)),
        hTd, ← h1]
      exact ⟨rfl, rfl⟩
    have h1' : (hmmBwdStep qexp qlog lomega Gamma aLN normNorm s m).kappa m =
        (kappaSpecAux qexp qlog lomega Gamma T (T - 1 - m)).1 := by
      rw [hmmBwdStep_kappa_self, hspec.1]
    have h2' : (hmmBwdStep qexp qlog lomega Gamma aLN normNorm
        s m).kLogNorms m =
        (kappaSpecAux qexp qlog lomega Gamma T (T - 1 - m)).2 := by
      rw [hmmBwdStep_kLN_self, hspec.2, h2]
    have hg' : (hmmBwdStep qexp qlog lomega Gamma aLN normNorm s m).gradCorr m
        = qexp (aLN m +
          (kappaSpecAux qexp qlog lomega Gamma T (T - 1 - m)).2 - normNorm)
        := by
      rw [hmmBwdStep_gc_self, hspec.2, h2]
    obtain ⟨iA, iB, iC⟩ := ihm (hmmBwdStep qexp qlog lomega Gamma aLN normNorm
      s m) (by omega) h1' h2'
    refine ⟨fun n hn => ?_, fun n hn => ?_, fun n hn => ?_⟩
    · rcases Nat.lt_or_ge n (m + 1) with hlt | hge
      · exact iA n (by omega)
      · have hn' : n = m + 1 := by omega
        subst hn'
        obtain ⟨c1, c2, _⟩ := iC (m + 1) (by omega)
        obtain ⟨d1, d2, _⟩ := hmmBwdStep_ne qexp qlog lomega Gamma aLN
          normNorm s m (m + 1) (by omega)
        exact ⟨by rw [c1, d1, h1], by rw [c2, d2, h2]⟩
    · rcases Nat.lt_or_ge n m with hlt | hge
      · exact iB n hlt
      · have hn' : n = m := by omega
        subst hn'
        obtain ⟨_, _, c3⟩ := iC n (le_refl n)
        rw [c3, hg']
    · obtain ⟨c1, c2, c3⟩ := iC n (by omega)
      obtain ⟨d1, d2, d3⟩ := hmmBwdStep_ne qexp qlog lomega Gamma aLN
        normNorm s m n (by omega)
      exact ⟨by rw [c1, d1], by rw [c2, d2], by rw [c3, d3]⟩

/-- The full backward pass fills every slot with the closed recursive form
and computes the `grad_corr` correction factors, with the boundary slot
`T - 1` holding the all-ones vector, log-normalizer `0`, and
`grad_corr[T-1] = exp(alpha_log_norms(T-1) - norm_norm)`. -/
theorem hmmBwd_spec (T : ℕ) (hT : 0 < T) :
    (∀ n, n ≤ T - 1 →
      (hmmBwd qexp qlog lomega Gamma T aLN normNorm).kappa n =
        (kappaSpecAux qexp qlog lomega Gamma T (T - 1 - n)).1 ∧
      (hmmBwd qexp qlog lomega Gamma T aLN normNorm).kLogNorms n =
        (kappaSpecAux qexp qlog lomega Gamma T (T - 1 - n)).2) ∧
    (∀ n, n < T - 1 →
      (hmmBwd qexp qlog lomega Gamma T aLN normNorm).gradCorr n =
        qexp (aLN n +
          (kappaSpecAux qexp qlog lomega Gamma T (T - 1 - n)).2 - normNorm)) ∧
    (hmmBwd qexp qlog lomega Gamma T aLN normNorm).gradCorr (T - 1) =
      qexp (aLN (T - 1) - normNorm) := by
  have hinit1 : (hmmBwdInit qexp T aLN normNorm :
      HMMBwdStateT K).kappa (T - 1) =
      (kappaSpecAux qexp qlog lomega Gamma T (T - 1 - (T - 1))).1 := by
    rw [Nat.sub_self]
    unfold hmmBwdInit kappaSpecAux
    simp
  have hinit2 : (hmmBwdInit qexp T aLN normNorm :
      HMMBwdStateT K).kLogNorms (T - 1) =
      (kappaSpecAux qexp qlog lomega Gamma T (T - 1 - (T - 1))).2 := by
    rw [Nat.sub_self]
    rfl
  obtain ⟨iA, iB, iC⟩ := bwdLoop_inv qexp qlog lomega Gamma aLN normNorm T
    (T - 1) (hmmBwdInit qexp T aLN normNorm) (by omega) hinit1 hinit2
  refine ⟨iA, iB, ?_⟩
  obtain ⟨_, _, c3⟩ := iC (T - 1) (le_refl (T - 1))
  rw [show hmmBwd qexp qlog lomega Gamma T aLN normNorm =
    bwdLoop qexp qlog lomega Gamma aLN normNorm
      (hmmBwdInit qexp T aLN normNorm) (T - 1) from rfl] at *
  rw [c3]
  unfold hmmBwdInit
  simp

end HMMBwd

/-- Claim C2: for every input with `n_transitions = T + 1 > 0`, the adjoint
computation runs the kappa recursion from the last step backward:
`kappa[T]` (the last slot) is the all-ones vector with `kappa_log_norms(T) =
0`, and for `n < T`, `kappa[n] = Gamma * (omega.col(n+2) ⊙ kappa[n+1])`
rescaled by its own max coefficient, with its own independent running
log-normalizer `kappa_log_norms(n) = log(norm) + kappa_log_norms(n+1)`; and
for every step `n ≤ T` the correction factor is
`grad_corr[n] = exp(alpha_log_norms(n) + kappa_log_norms(n) -
total_log_norm)` where `total_log_norm` is the final forward
log-normalizer. -/
theorem hmm_backward_pass_spec (qe ql : ℚ → ℚ) {K : ℕ}
    (lω : ℕ → Fin (K + 1) → ℚ) (Γm : Fin (K + 1) → Fin (K + 1) → ℚ)
    (ρ : Fin (K + 1) → ℚ) (T : ℕ) :
    ((hmmBwdFull qe ql lω Γm ρ (T + 1)).kappa T = fun _ => 1) ∧
    (hmmBwdFull qe ql lω Γm ρ (T + 1)).kLogNorms T = 0 ∧
    (∀ n, n < T →
      ((hmmBwdFull qe ql lω Γm ρ (T + 1)).kappa n = fun j =>
        (∑ i, Γm j i * (qe (lω (n + 2) i) *
          (hmmBwdFull qe ql lω Γm ρ (T + 1)).kappa (n + 1) i)) /
        vecMax (fun j2 => ∑ i, Γm j2 i * (qe (lω (n + 2) i) *
          (hmmBwdFull qe ql lω Γm ρ (T + 1)).kappa (n + 1) i))) ∧
      (hmmBwdFull qe ql lω Γm ρ (T + 1)).kLogNorms n =
        ql (vecMax (fun j2 => ∑ i, Γm j2 i * (qe (lω (n + 2) i) *
          (hmmBwdFull qe ql lω Γm ρ (T + 1)).kappa (n + 1) i))) +
        (hmmBwdFull qe ql lω Γm ρ (T + 1)).kLogNorms (n + 1)) ∧
    (∀ n, n ≤ T →
      (hmmBwdFull qe ql lω Γm ρ (T + 1)).gradCorr n =
        qe ((hmmFwd qe ql lω Γm ρ (T + 1)).logNorms n +
          (hmmBwdFull qe ql lω Γm ρ (T + 1)).kLogNorms n -
          (hmmFwd qe ql lω Γm ρ (T + 1)).logNorms (T + 1))) := by
  unfold hmmBwdFull
  obtain ⟨iA, iB, iBd⟩ := hmmBwd_spec qe ql lω Γm
    ((hmmFwd qe ql lω Γm ρ (T + 1)).logNorms)
    ((hmmFwd qe ql lω Γm ρ (T + 1)).logNorms (T + 1)) (T + 1)
    (Nat.succ_pos T)
  have hsub : T + 1 - 1 = T := rfl
  rw [hsub] at iA iB iBd
  have hlast := iA T (le_refl T)
  have h1 : (hmmBwd qe ql lω Γm (T + 1)
      ((hmmFwd qe ql lω Γm ρ (T + 1)).logNorms)
      ((hmmFwd qe ql lω Γm ρ (T + 1)).logNorms (T + 1))).kappa T =
      fun _ => 1 := by
    rw [hlast.1, Nat.sub_self]
    rfl
  have h2 : (hmmBwd qe ql lω Γm (T + 1)
      ((hmmFwd qe ql lω Γm ρ (T + 1)).logNorms)
      ((hmmFwd qe ql lω Γm ρ (T + 1)).logNorms (T + 1))).kLogNorms T = 0 := by
    rw [hlast.2, Nat.sub_self]
    rfl
  refine ⟨h1, h2, fun n hn => ?_, fun n hn => ?_⟩
  · have hdn : T - n = (T - (n + 1)) + 1 := by omega
    have hTd : T + 1 - (T - (n + 1)) = n + 2 := by omega
    have hk1 := (iA (n + 1) (by omega)).1
    have hkn := (iA n (by omega)).1
    have hln := (iA n (by omega)).2
    have hl1 := (iA (n + 1) (by omega)).2
    constructor
    · rw [hkn, hdn, kappaSpecAux_succ qe ql lω Γm (T + 1) (T - (n + 1)),
        hTd, hk1]
    · rw [hln, hdn, hk1, hl1]
      rw [show (kappaSpecAux qe ql lω Γm (T + 1) (T - (n + 1) + 1)).2 =
        ql (vecMax (fun j2 => ∑ i, Γm j2 i *
          (qe (lω (T + 1 - (T - (n + 1))) i) *
            (kappaSpecAux qe ql lω Γm (T + 1) (T - (n + 1))).1 i))) +
          (kappaSpecAux qe ql lω Γm (T + 1) (T - (n + 1))).2 from
        congrArg Prod.snd
          (kappaSpecAux_succ qe ql lω Γm (T + 1) (T - (n + 1))), hTd]
  · rcases Nat.lt_or_ge n T with hlt | hge
    · rw [(iA n (by omega)).2]
      exact iB n hlt
    · have hn' : n = T := by omega
      subst hn'
      rw [h2, add_zero]
      exact iBd

/-- Claim C6: operations skip constant operands.  In `hmm_marginal_lpdf`,
the Jacobian-adjoint product for an operand is computed only when that
operand's type is non-constant — with the constantness flag set, the
operand's partials slot stays `none`.  The variable-constant
squared-distance nodes store the constant operand as plain numbers and
their `chain` writes only the differentiable operand's adjoint slots: every
adjoint slot other than the differentiable operand's node (resp. outside
the differentiable vector's node identifiers) is unchanged, so the constant
operand receives zero adjoint contribution and owns no adjoint-carrying
state. -/
theorem constant_operand_skip (qe ql : ℚ → ℚ) {K : ℕ}
    (lω : ℕ → Fin (K + 1) → ℚ) (Γm : Fin (K + 1) → Fin (K + 1) → ℚ)
    (ρ : Fin (K + 1) → ℚ) (T : ℕ) (cO cG cR : Bool)
    (ia : ℕ) (aval bd adj : ℚ) (adjs : ℕ → ℚ)
    (ids : List ℕ) (v1 v2 : List ℚ) :
    (cO = true → (hmmGradsOf qe ql lω Γm ρ cO cG cR T).dOmega = none) ∧
    (cG = true → (hmmGradsOf qe ql lω Γm ρ cO cG cR T).dGamma = none) ∧
    (cR = true → (hmmGradsOf qe ql lω Γm ρ cO cG cR T).dRho = none) ∧
    (∀ j, j ≠ ia →
      scal_squared_distance_vd_chain ia aval bd adj adjs j = adjs j) ∧
    (∀ j, j ∉ ids →
      squared_distance_vd_chain ids v1 v2 adj adjs j = adjs j) := by
  refine ⟨fun h => ?_, fun h => ?_, fun h => ?_, fun j hj => ?_,
    fun j hj => ?_⟩
  · subst h
    rfl
  · subst h
    rfl
  · subst h
    rfl
  · exact Function.update_noteq hj _ adjs
  · refine foldl_update_frame _ adj adjs j fun p hp he => ?_
    exact hj (he ▸ (List.of_mem_zip hp).1)

/-! ## Precondition checks of `hmm_marginal_lpdf` -/

/-- An error raised by a precondition check: a domain error or an
invalid-argument (size) error, naming the function and the argument (and
the failing row, for the rowwise simplex check). -/
inductive CheckErr where
  | domainErr (fn arg : String)
  | domainRowErr (fn arg : String) (row : ℕ)
  | invalidArg (fn arg : String)
deriving DecidableEq

/-- Modelled from the spec: `check_square` is not under `src/`; the spec and
the function's documentation require the transition operand to be square,
raising a domain error otherwise.  A list-of-rows matrix is square when
every row's length equals the number of rows. -/
def isSquareMat (m : List (List ℚ)) : Bool :=
  m.all (fun r => r.length == m.length)

/-- Modelled from the spec: `check_simplex` / `is_simplex` is not under
`src/`; the spec requires a valid probability simplex to have nonnegative
entries summing to 1 within tolerance (the library's 1e-8 constraint
tolerance), and the repository's `is_simplex` tests show the empty vector is
rejected. -/
def isSimplexQ (v : List ℚ) : Bool :=
  !v.isEmpty && v.all (fun x => decide (0 ≤ x)) &&
    decide (|v.sum - 1| ≤ 1 / 100000000)

/-- The guarded entry point of `hmm_marginal_lpdf`: the precondition checks
run in source order — `Gamma` square, `Gamma`'s row length against
`n_states`, every row of `Gamma` a simplex (by index, reported as
`Gamma[i, ]`), `rho`'s length against `n_states`, `rho` a simplex — before
the forward pass; a violation short-circuits with the corresponding error
and no part of the forward computation happens.  Matrices are lists of
rows; `log_omegas` has one row per state and one column per observation. -/
def hmm_marginal_lpdf_checked (qe ql : ℚ → ℚ)
    (lomegaRows GammaRows : List (List ℚ)) (rhoVec : List ℚ) :
    Except CheckErr ℚ :=
  let nStates := lomegaRows.length
  let T := (lomegaRows.headD []).length - 1
  if !isSquareMat GammaRows then
    .error (.domainErr "hmm_marginal_lpdf" "Gamma")
  else if !((GammaRows.headD []).length == nStates) then
    .error (.invalidArg "hmm_marginal_lpdf" "Gamma")
  else
    match GammaRows.findIdx? (fun r => !isSimplexQ r) with
    | some i => .error (.domainRowErr "hmm_marginal_lpdf" "Gamma[i, ]" i)
    | none =>
      if !(rhoVec.length == nStates) then
        .error (.invalidArg "hmm_marginal_lpdf" "rho")
      else if !isSimplexQ rhoVec then
        .error (.domainErr "hmm_marginal_lpdf" "rho")
      else
        .ok (@hmmFwdResult qe ql (nStates - 1)
          (fun n j => (lomegaRows.getD j.val []).getD n 0)
          (fun i j => (GammaRows.getD i.val []).getD j.val 0)
          (fun j => rhoVec.getD j.val 0) T)

/-- Claim C3: the preconditions of `hmm_marginal_lpdf` are checked before
any forward-pass computation: a non-square transition matrix yields the
domain error naming `Gamma`; with the sizes consistent, a row of `Gamma`
that is not a valid simplex yields the domain error naming `Gamma[i, ]` and
the failing row; a `rho` whose length differs from the number of states
yields the invalid-argument error naming `rho`; a non-simplex `rho` yields
the domain error naming `rho`; in each failing case the function returns
the error alone (no partial computation), and only when every check passes
does it run the forward pass and return its log marginal density. -/
theorem hmm_marginal_checks_spec (qe ql : ℚ → ℚ)
    (lomegaRows GammaRows : List (List ℚ)) (rhoVec : List ℚ) :
    (isSquareMat GammaRows = false →
      hmm_marginal_lpdf_checked qe ql lomegaRows GammaRows rhoVec =
        .error (.domainErr "hmm_marginal_lpdf" "Gamma")) ∧
    (isSquareMat GammaRows = true →
      (GammaRows.headD []).length = lomegaRows.length →
      ∀ i, GammaRows.findIdx? (fun r => !isSimplexQ r) = some i →
      hmm_marginal_lpdf_checked qe ql lomegaRows GammaRows rhoVec =
        .error (.domainRowErr "hmm_marginal_lpdf" "Gamma[i, ]" i)) ∧
    (isSquareMat GammaRows = true →
      (GammaRows.headD []).length = lomegaRows.length →
      GammaRows.findIdx? (fun r => !isSimplexQ r) = none →
      rhoVec.length ≠ lomegaRows.length →
      hmm_marginal_lpdf_checked qe ql lomegaRows GammaRows rhoVec =
        .error (.invalidArg "hmm_marginal_lpdf" "rho")) ∧
    (isSquareMat GammaRows = true →
      (GammaRows.headD []).length = lomegaRows.length →
      GammaRows.findIdx? (fun r => !isSimplexQ r) = none →
      rhoVec.length = lomegaRows.length →
      isSimplexQ rhoVec = false →
      hmm_marginal_lpdf_checked qe ql lomegaRows GammaRows rhoVec =
        .error (.domainErr "hmm_marginal_lpdf" "rho")) ∧
    (isSquareMat GammaRows = true →
      (GammaRows.headD []).length = lomegaRows.length →
      GammaRows.findIdx? (fun r => !isSimplexQ r) = none →
      rhoVec.length = lomegaRows.length →
      isSimplexQ rhoVec = true →
      hmm_marginal_lpdf_checked qe ql lomegaRows GammaRows rhoVec =
        .ok (@hmmFwdResult qe ql (lomegaRows.length - 1)
          (fun n j => (lomegaRows.getD j.val []).getD n 0)
          (fun i j => (GammaRows.getD i.val []).getD j.val 0)
          (fun j => rhoVec.getD j.val 0)
          ((lomegaRows.headD []).length - 1))) := by
  refine ⟨fun h1 => ?_, fun h1 h2 i h3 => ?_, fun h1 h2 h3 h4 => ?_,
    fun h1 h2 h3 h4 h5 => ?_, fun h1 h2 h3 h4 h5 => ?_⟩
  · unfold hmm_marginal_lpdf_checked
    rw [h1]
    rfl
  · unfold hmm_marginal_lpdf_checked
    have h2' : (GammaRows.head?.getD []).length = lomegaRows.length := by
      rw [← List.headD_eq_head?_getD]
      exact h2
    rw [h1, h3]
    simp [h2']
  · unfold hmm_marginal_lpdf_checked
    have h2' : (GammaRows.head?.getD []).length = lomegaRows.length := by
      rw [← List.headD_eq_head?_getD]
      exact h2
    rw [h1, h3]
    simp [h2', h4]
  · unfold hmm_marginal_lpdf_checked
    have h2' : (GammaRows.head?.getD []).length = lomegaRows.length := by
      rw [← List.headD_eq_head?_getD]
      exact h2
    rw [h1, h3, h5]
    simp [h2', h4]
  · unfold hmm_marginal_lpdf_checked
    have h2' : (GammaRows.head?.getD []).length = lomegaRows.length := by
      rw [← List.headD_eq_head?_getD]
      exact h2
    rw [h1, h3, h5]
    simp [h2', h4]

/-! ## `ordered_constrain` through the adjoint-Jacobian apply pattern -/

/-- The forward function of `ordered_constrain_op`: `y[0] = x[0]` and
`y[n] = y[n-1] + exp(x[n])` (the loop caches `exp_x_[n-1] = exp(x[n])`,
embedded here by reapplying `qexp` to `x`). -/
def ordered_constrain_y (qexp : ℚ → ℚ) (x : ℕ → ℚ) : ℕ → ℚ
  | 0 => x 0
  | n + 1 => ordered_constrain_y qexp x n + qexp (x (n + 1))

/-- The rolling-sum loop of
`ordered_constrain_op::multiply_adjoint_jacobian`, iterating over `n = M,
…, 1` (the fold index `m` is `n - 1`): `rolling_adjoint_sum += adj(n)` and
`adj_times_jac(n) = exp_x_[n-1] * rolling_adjoint_sum`. -/
def majLoop (qexp : ℚ → ℚ) (x adj : ℕ → ℚ) (st : ℚ × (ℕ → ℚ)) (M : ℕ) :
    ℚ × (ℕ → ℚ) :=
  (List.range M).reverse.foldl
    (fun st m =>
      let r := st.1 + adj (m + 1)
      (r, Function.update st.2 (m + 1) (qexp (x (m + 1)) * r)))
    st

/-- `ordered_constrain_op::multiply_adjoint_jacobian`: for `N > 0`, runs the
rolling-sum loop from `n = N - 1` down to `1` and then sets
`adj_times_jac(0) = rolling_adjoint_sum + adj(0)`; a zero-size input
produces the (empty) zero vector.  Slots `≥ N` are unused and hold `0`. -/
def multiply_adjoint_jacobian (qexp : ℚ → ℚ) (x adj : ℕ → ℚ) (N : ℕ) :
    ℕ → ℚ :=
  if N = 0 then fun _ => 0
  else
    let s := majLoop qexp x adj (0, fun _ => 0) (N - 1)
    Function.update s.2 0 (s.1 + adj 0)

/-- The Jacobian of the forward map of `ordered_constrain` (with `qexp`
standing for its own derivative, as for the real exponential):
`∂y[k]/∂x[0] = 1` and, for `n ≥ 1`, `∂y[k]/∂x[n] = exp(x[n])` when `n ≤ k`
and `0` otherwise. -/
def ordered_constrain_jac (qexp : ℚ → ℚ) (x : ℕ → ℚ) (k n : ℕ) : ℚ :=
  if n = 0 then 1 else if n ≤ k then qexp (x n) else 0

/-- The rolling-sum loop computes suffix sums: after running down from `M`,
the rolling sum holds `∑_{k=1}^{M} adj k` and slot `n ∈ [1, M]` holds
`exp(x n) * (st₁ + ∑_{k=n}^{M} adj k)`; other slots are untouched. -/
theorem majLoop_spec (qexp : ℚ → ℚ) (x adj : ℕ → ℚ) :
    ∀ (M : ℕ) (st : ℚ × (ℕ → ℚ)),
    (majLoop qexp x adj st M).1 = st.1 + ∑ k ∈ Finset.Icc 1 M, adj k ∧
    ∀ n, (majLoop qexp x adj st M).2 n =
      if 1 ≤ n ∧ n ≤ M then
        qexp (x n) * (st.1 + ∑ k ∈ Finset.Icc n M, adj k)
      else st.2 n := by
  intro M
  induction M with
  | zero =>
    intro st
    constructor
    · show st.1 = st.1 + ∑ k ∈ Finset.Icc 1 0, adj k
      rw [Finset.Icc_eq_empty (by omega), Finset.sum_empty, add_zero]
    · intro n
      show st.2 n = if 1 ≤ n ∧ n ≤ 0 then _ else st.2 n
      rw [if_neg (by omega)]
  | succ M ih =>
    intro st
    have hunroll : majLoop qexp x adj st (M + 1) =
        majLoop qexp x adj
          (st.1 + adj (M + 1),
           Function.update st.2 (M + 1)
             (qexp (x (M + 1)) * (st.1 + adj (M + 1)))) M := by
      unfold majLoop
      rw [List.range_succ, List.reverse_append]
      rfl
    obtain ⟨ih1, ih2⟩ := ih (st.1 + adj (M + 1),
      Function.update st.2 (M + 1)
        (qexp (x (M + 1)) * (st.1 + adj (M + 1))))
    constructor
    · rw [hunroll, ih1]
      show st.1 + adj (M + 1) + _ = _
      rw [Finset.sum_Icc_succ_top (by omega : 1 ≤ M + 1)]
      ring
    · intro n
      rw [hunroll, ih2 n]
      dsimp only
      by_cases h1 : 1 ≤ n ∧ n ≤ M
      · rw [if_pos h1, if_pos ⟨h1.1, by omega⟩,
          Finset.sum_Icc_succ_top (by omega : n ≤ M + 1)]
        show _ = qexp (x n) * (st.1 + (_ + adj (M + 1)))
        ring
      · rw [if_neg h1]
        by_cases h2 : n = M + 1
        · subst h2
          rw [Function.update_same, if_pos ⟨by omega, le_refl _⟩,
            Finset.Icc_self, Finset.sum_singleton]
        · rw [Function.update_noteq h2, if_neg (by omega)]

/-- Claim C7: the `ordered_constrain` operator satisfies the
adjoint-Jacobian adapter contract.  Its forward function maps the free
vector `x` to `y` with `y[0] = x[0]` and `y[n] = y[n-1] + exp(x[n])` (in
closed form, `y[k] = x[0] + ∑_{m=1}^{k} exp(x[m])`), and for every output
adjoint vector, `multiply_adjoint_jacobian` returns the Jacobian transpose
of that forward map times the adjoint: component `n ≥ 1` is
`exp(x[n]) * ∑_{k ≥ n} adj[k]`, component `0` is `∑_k adj[k]`, and each
in-range component `n` equals `∑_k adj[k] * J[k, n]`. -/
theorem ordered_constrain_adj_jac_spec (qe : ℚ → ℚ) (x adj : ℕ → ℚ)
    (N : ℕ) :
    ordered_constrain_y qe x 0 = x 0 ∧
    (∀ n, ordered_constrain_y qe x (n + 1) =
      ordered_constrain_y qe x n + qe (x (n + 1))) ∧
    (∀ k, ordered_constrain_y qe x k =
      x 0 + ∑ m ∈ Finset.Icc 1 k, qe (x m)) ∧
    (∀ n, 1 ≤ n → n < N → multiply_adjoint_jacobian qe x adj N n =
      qe (x n) * ∑ k ∈ Finset.Ico n N, adj k) ∧
    (0 < N → multiply_adjoint_jacobian qe x adj N 0 =
      ∑ k ∈ Finset.range N, adj k) ∧
    (∀ n, n < N → multiply_adjoint_jacobian qe x adj N n =
      ∑ k ∈ Finset.range N, adj k * ordered_constrain_jac qe x k n) := by
  have hIcoIcc : ∀ n, 0 < N → Finset.Ico n N = Finset.Icc n (N - 1) := by
    intro n hN
    rw [show N = (N - 1) + 1 by omega, Nat.Ico_succ_right]
    simp
  have hclosed : ∀ k, ordered_constrain_y qe x k =
      x 0 + ∑ m ∈ Finset.Icc 1 k, qe (x m) := by
    intro k
    induction k with
    | zero =>
      show x 0 = x 0 + ∑ m ∈ Finset.Icc 1 0, qe (x m)
      rw [Finset.Icc_eq_empty (by omega), Finset.sum_empty, add_zero]
    | succ k ihk =>
      show ordered_constrain_y qe x k + qe (x (k + 1)) = _
      rw [ihk, Finset.sum_Icc_succ_top (by omega : 1 ≤ k + 1)]
      ring
  have hmid : ∀ n, 1 ≤ n → n < N → multiply_adjoint_jacobian qe x adj N n =
      qe (x n) * ∑ k ∈ Finset.Ico n N, adj k := by
    intro n h1 h2
    unfold multiply_adjoint_jacobian
    rw [if_neg (by omega)]
    show Function.update (majLoop qe x adj (0, fun _ => 0) (N - 1)).2 0 _ n
      = _
    rw [Function.update_noteq (by omega)]
    rw [(majLoop_spec qe x adj (N - 1) (0, fun _ => 0)).2 n,
      if_pos ⟨h1, by omega⟩, hIcoIcc n (by omega)]
    norm_num
  have hzero : 0 < N → multiply_adjoint_jacobian qe x adj N 0 =
      ∑ k ∈ Finset.range N, adj k := by
    intro hN
    unfold multiply_adjoint_jacobian
    rw [if_neg (by omega)]
    show Function.update (majLoop qe x adj (0, fun _ => 0) (N - 1)).2 0
      ((majLoop qe x adj (0, fun _ => 0) (N - 1)).1 + adj 0) 0 = _
    rw [Function.update_same,
      (majLoop_spec qe x adj (N - 1) (0, fun _ => 0)).1]
    rw [Finset.range_eq_Ico,
      Finset.sum_eq_sum_Ico_succ_bot hN adj, hIcoIcc 1 hN]
    show (0 : ℚ) + _ + adj 0 = _
    ring
  refine ⟨rfl, fun n => rfl, hclosed, hmid, hzero, fun n hn => ?_⟩
  rcases Nat.eq_zero_or_pos n with h0 | h1
  · subst h0
    rw [hzero (by omega)]
    refine Finset.sum_congr rfl fun k _ => ?_
    unfold ordered_constrain_jac
    rw [if_pos rfl, mul_one]
  · rw [hmid n h1 hn]
    have hsplit : ∑ k ∈ Finset.range N, adj k * ordered_constrain_jac
        qe x k n =
        ∑ k ∈ Finset.Ico 0 n, adj k * ordered_constrain_jac qe x k n +
        ∑ k ∈ Finset.Ico n N, adj k * ordered_constrain_jac qe x k n := by
      rw [Finset.range_eq_Ico,
        Finset.sum_Ico_consecutive _ (Nat.zero_le n) (by omega)]
    rw [hsplit]
    have hlow : ∑ k ∈ Finset.Ico 0 n, adj k *
        ordered_constrain_jac qe x k n = 0 := by
      refine Finset.sum_eq_zero fun k hk => ?_
      have hk' : k < n := (Finset.mem_Ico.mp hk).2
      unfold ordered_constrain_jac
      rw [if_neg (by omega), if_neg (by omega), mul_zero]
    have hhigh : ∑ k ∈ Finset.Ico n N, adj k *
        ordered_constrain_jac qe x k n =
        ∑ k ∈ Finset.Ico n N, adj k * qe (x n) := by
      refine Finset.sum_congr rfl fun k hk => ?_
      have hk' : n ≤ k := (Finset.mem_Ico.mp hk).1
      unfold ordered_constrain_jac
      rw [if_neg (by omega), if_pos hk']
    rw [hlow, hhigh, zero_add, ← Finset.sum_mul]
    ring

end StanAD
